import Mathlib

/-!
Shallow embedding of the cross-chain bridge event listener
(`script.py`): the log decoder `parse_lock_event_from_log`, the mock
log generator's data encoding, the nonce-deduplicating submission
queue (`submit_mint_transaction` / `process_queue`), the poll loop of
`EventListener.run`, and the state load/save helpers.

Strings from the Python code are modelled as `List Char`; Python's
unbounded integers as `Int`/`Nat`.  `int(s, 16)` is modelled with its
real grammar (surrounding ASCII whitespace, optional sign, optional
`0x`/`0X` prefix, single underscores between digits);
`str.replace('0x', '')` removes every non-overlapping occurrence,
scanning left to right, exactly as in Python.
-/

/-- A raw log entry as returned by the (mock) RPC node. -/
structure LogEntry where
  address : List Char
  topics : List (List Char)
  data : List Char
  blockNumber : Int
deriving DecidableEq, Repr

/-- The structured event produced by the decoder. -/
structure ParsedLockEvent where
  source_token : List Char
  destination_chain_id : Int
  recipient_address : List Char
  amount : Int
  nonce : Int
  block_number : Int
deriving DecidableEq, Repr

/-- ASCII whitespace characters stripped by Python's `int`. -/
def isPyWs (c : Char) : Bool :=
  c = ' ' || c = '\t' || c = '\n' || c = '\r' || c = '\x0b' || c = '\x0c'

/-- Strip leading and trailing whitespace, as `int` does before parsing. -/
def stripWs (l : List Char) : List Char :=
  ((l.dropWhile isPyWs).reverse.dropWhile isPyWs).reverse

/-- Hexadecimal digit predicate (`0-9`, `a-f`, `A-F`). -/
def isHexDigitCh (c : Char) : Bool :=
  ('0' ≤ c && c ≤ '9') || ('a' ≤ c && c ≤ 'f') || ('A' ≤ c && c ≤ 'F')

/-- Numeric value of a hexadecimal digit. -/
def hexDigitVal (c : Char) : Nat :=
  if '0' ≤ c && c ≤ '9' then c.toNat - '0'.toNat
  else if 'a' ≤ c && c ≤ 'f' then c.toNat - 'a'.toNat + 10
  else if 'A' ≤ c && c ≤ 'F' then c.toNat - 'A'.toNat + 10
  else 0

/-- After a digit has been read: the remaining characters must be hex
digits, with single underscores allowed only between digits. -/
def hexTail : List Char → Bool
  | [] => true
  | c :: rest =>
    if c = '_' then
      match rest with
      | [] => false
      | d :: rest2 => isHexDigitCh d && hexTail rest2
    else isHexDigitCh c && hexTail rest

/-- A valid digit body for `int(·, 16)`: nonempty, starts and ends with a
hex digit, underscores single and between digits. -/
def hexCore : List Char → Bool
  | [] => false
  | c :: rest => isHexDigitCh c && hexTail rest

/-- Value of a digit body (underscores are separators and ignored). -/
def hexVal (l : List Char) : Nat :=
  (l.filter (fun c => c ≠ '_')).foldl (fun a c => 16 * a + hexDigitVal c) 0

/-- Drop one leading underscore (allowed directly after a `0x` prefix). -/
def dropLeadUnderscore (l : List Char) : List Char :=
  if l.head? = some '_' then l.tail else l

/-- Digits of `int(·, 16)` after the optional sign: an optional `0x`/`0X`
prefix (itself optionally followed by one underscore) and a digit body. -/
def pyIntHexBody (l : List Char) : Option Nat :=
  match l with
  | c0 :: c1 :: _ =>
    if c0 = '0' ∧ (c1 = 'x' ∨ c1 = 'X') then
      let r := dropLeadUnderscore (l.tail.tail)
      if hexCore r then some (hexVal r) else none
    else if hexCore l then some (hexVal l) else none
  | _ => if hexCore l then some (hexVal l) else none

/-- Python's `int(s, 16)`: `none` models a raised `ValueError`. -/
def pyIntHex (s : List Char) : Option Int :=
  let t := stripWs s
  if t.head? = some '+' then (pyIntHexBody t.tail).map Int.ofNat
  else if t.head? = some '-' then (pyIntHexBody t.tail).map (fun n => -(Int.ofNat n))
  else (pyIntHexBody t).map Int.ofNat

/-- Python's `s.replace('0x', '')`: remove every non-overlapping
occurrence of `0x`, scanning left to right. -/
def remove0x : List Char → List Char
  | [] => []
  | [c] => [c]
  | c1 :: c2 :: rest =>
    if c1 = '0' ∧ c2 = 'x' then remove0x rest
    else c1 :: remove0x (c2 :: rest)

/-- `l[a:b]` on a Python string (for `0 ≤ a ≤ b`). -/
def pySlice (l : List Char) (a b : Nat) : List Char :=
  (l.drop a).take (b - a)

/-- `l[-n:]` on a Python string of length ≥ n. -/
def pyLastN (n : Nat) (l : List Char) : List Char :=
  l.drop (l.length - n)

/-- `BridgeContractHandler.parse_lock_event_from_log`: decode the `data`
field of a raw log into a structured event; `none` models the `return
None` paths (bad length, or a `ValueError` from one of the three
`int(·, 16)` calls). -/
def parse_lock_event_from_log (log : LogEntry) : Option ParsedLockEvent :=
  let data := remove0x log.data
  if data.length ≠ 64 * 5 then none
  else
    match pyIntHex (pySlice data 64 128), pyIntHex (pySlice data 192 256),
        pyIntHex (pySlice data 256 320) with
    | some dcid, some amt, some non =>
      some
        { source_token := '0' :: 'x' :: pyLastN 40 (pySlice data 0 64)
          destination_chain_id := dcid
          recipient_address := '0' :: 'x' :: pyLastN 40 (pySlice data 128 192)
          amount := amt
          nonce := non
          block_number := log.blockNumber }
    | _, _, _ => none

/-- Python's `s.zfill(w)`: left-pad with `'0'` to width `w`, keeping a
leading sign character in front of the padding. -/
def pyZfill (w : Nat) (l : List Char) : List Char :=
  if w ≤ l.length then l
  else
    match l with
    | [] => List.replicate w '0'
    | c :: rest =>
      if c = '+' ∨ c = '-' then c :: (List.replicate (w - l.length) '0' ++ rest)
      else List.replicate (w - l.length) '0' ++ l

/-- Lowercase hexadecimal digit character for `n < 16`. -/
def hexDigitChar (n : Nat) : Char :=
  match n with
  | 0 => '0' | 1 => '1' | 2 => '2' | 3 => '3' | 4 => '4'
  | 5 => '5' | 6 => '6' | 7 => '7' | 8 => '8' | 9 => '9'
  | 10 => 'a' | 11 => 'b' | 12 => 'c' | 13 => 'd' | 14 => 'e' | 15 => 'f'
  | _ => '0'

/-- Lowercase hexadecimal digits of a natural number (`hex(n)[2:]` for
`n ≥ 0`; `hex(0)[2:] = "0"`). -/
def natToHex (n : Nat) : List Char :=
  if _h : 16 ≤ n then natToHex (n / 16) ++ [hexDigitChar (n % 16)]
  else [hexDigitChar n]
decreasing_by exact Nat.div_lt_self (by omega) (by omega)

/-- Python's `hex(n)[2:]`: for `n < 0`, `hex` yields `-0x...`, so the
slice starts with the stray `x`. -/
def pyHexBody (n : Int) : List Char :=
  if n < 0 then 'x' :: natToHex n.natAbs else natToHex n.toNat

/-- The `data_payload` expression of
`MockBlockchainNodeConnector._generate_mock_lock_event_log`, with its
five field values as parameters. -/
def lockEventDataPayload (source_token : List Char) (destination_chain_id : Int)
    (recipient_address : List Char) (amount nonce : Int) : List Char :=
  pyZfill 64 (remove0x source_token) ++
  pyZfill 64 (pyHexBody destination_chain_id) ++
  pyZfill 64 (remove0x recipient_address) ++
  pyZfill 64 (pyHexBody amount) ++
  pyZfill 64 (pyHexBody nonce)

/-- The bridge contract address from `CONFIG['source_chain']`. -/
def bridge_contract_address : List Char :=
  ('0' :: 'x' :: "Ab5801a7D398351b8bE11C439e05C5B3259aeC9B".toList)

/-- The mock Lock event signature hash topic. -/
def lock_event_signature_hash : List Char :=
  ('0' :: 'x' :: "1234567890abcdef1234567890abcdef1234567890abcdef1234567890abcdef".toList)

/-- `MockBlockchainNodeConnector._generate_mock_lock_event_log`, with the
five field values (fixed or randomly drawn in the source) as
parameters. -/
def _generate_mock_lock_event_log (block_number : Int) (source_token : List Char)
    (destination_chain_id : Int) (recipient_address : List Char)
    (amount nonce : Int) : LogEntry :=
  { address := bridge_contract_address
    topics := [lock_event_signature_hash]
    data := '0' :: 'x' ::
      lockEventDataPayload source_token destination_chain_id recipient_address amount nonce
    blockNumber := block_number }

/-- State of `DestinationTransactionProcessor`: the pending FIFO
(`asyncio.Queue`, front of the list dequeued first) and the set of
nonces already accepted. -/
structure ProcState where
  pending : List ParsedLockEvent
  processed_nonces : Finset Int
deriving DecidableEq

/-- The processor's initial state (fresh queue, no nonces seen). -/
def initProcState : ProcState := { pending := [], processed_nonces := ∅ }

/-- `DestinationTransactionProcessor.submit_mint_transaction`: discard
the event if its nonce was already accepted, otherwise append it to the
FIFO and register the nonce.  Always returns normally. -/
def submit_mint_transaction (p : ProcState) (event : ParsedLockEvent) : ProcState :=
  if event.nonce ∈ p.processed_nonces then p
  else
    { pending := p.pending ++ [event]
      processed_nonces := insert event.nonce p.processed_nonces }

/-- One `get` of `process_queue`: take the event at the FIFO front, if
any. -/
def process_queue_step (p : ProcState) : Option (ParsedLockEvent × ProcState) :=
  match p.pending with
  | [] => none
  | e :: rest => some (e, { p with pending := rest })

/-- Run `process_queue` for `n` dequeues: the events the consumer
receives, in order. -/
def drainQueue : Nat → ProcState → List ParsedLockEvent
  | 0, _ => []
  | n + 1, p =>
    match process_queue_step p with
    | none => []
    | some (e, p2) => e :: drainQueue n p2

/-- The listener configuration values used by the poll loop. -/
structure ListenerConfig where
  start_block : Int
  confirmation_blocks : Int
deriving DecidableEq

/-- Environment inputs of one poll-loop iteration: the sampled chain
head, the logs `get_logs` would return for the scanned range, and
whether the `open`/`json.dump` in `_save_state` succeeds. -/
structure IterInput where
  latest_block : Int
  logs : List LogEntry
  save_ok : Bool

/-- In-memory and on-disk state carried by `EventListener` across
iterations: `state['last_processed_block']`, the processor state, and
the last successfully persisted cursor (`none` if no save ever
succeeded). -/
structure ListenerState where
  last_processed_block : Int
  proc : ProcState
  disk : Option Int
deriving DecidableEq

/-- The range computation at the top of the loop body
(`from_block = last + 1`, `to_block = latest - confirmations`); `none`
models the `from_block > to_block` branch that `continue`s without
calling `get_logs`. -/
def pollDecision (last latest conf : Int) : Option (Int × Int) :=
  if last + 1 > latest - conf then none else some (last + 1, latest - conf)

/-- The `for log in logs` body: parse each log and submit the
successfully parsed events to the processor. -/
def submitParsedLogs (p : ProcState) (logs : List LogEntry) : ProcState :=
  logs.foldl
    (fun acc log =>
      match parse_lock_event_from_log log with
      | some e => submit_mint_transaction acc e
      | none => acc)
    p

/-- `EventListener._save_state`: on success record the cursor on disk;
an `IOError` is caught and logged, so the call returns normally either
way and the in-memory state is untouched. -/
def _save_state (s : ListenerState) (ok : Bool) : ListenerState :=
  if ok then { s with disk := some s.last_processed_block } else s

/-- One iteration of the `while True` loop in `EventListener.run`. -/
def runIteration (cfg : ListenerConfig) (s : ListenerState) (inp : IterInput) :
    ListenerState :=
  match pollDecision s.last_processed_block inp.latest_block cfg.confirmation_blocks with
  | none => s
  | some (_, to_block) =>
    _save_state
      { s with
        proc := submitParsedLogs s.proc inp.logs
        last_processed_block := to_block }
      inp.save_ok

/-- The scanned ranges produced by a sequence of iterations (the
arguments passed to `get_logs`). -/
def iterRanges (cfg : ListenerConfig) : ListenerState → List IterInput → List (Int × Int)
  | _, [] => []
  | s, inp :: rest =>
    match pollDecision s.last_processed_block inp.latest_block cfg.confirmation_blocks with
    | none => iterRanges cfg (runIteration cfg s inp) rest
    | some r => r :: iterRanges cfg (runIteration cfg s inp) rest

/-- Observable effects of one loop iteration, in program order: the
`submit_mint_transaction` calls of line 293, then the cursor update of
line 296, then the `_save_state` call of line 297. -/
inductive ListenerAction where
  | enqueue (e : ParsedLockEvent)
  | updateCursor (n : Int)
  | saveState (n : Int)
deriving DecidableEq, Repr

/-- The sequence of observable effects of one iteration of
`EventListener.run`, in the order the source performs them. -/
def iterationActions (cfg : ListenerConfig) (s : ListenerState) (inp : IterInput) :
    List ListenerAction :=
  match pollDecision s.last_processed_block inp.latest_block cfg.confirmation_blocks with
  | none => []
  | some (_, to_block) =>
    (inp.logs.foldl
      (fun acc log =>
        match parse_lock_event_from_log log with
        | some e => acc ++ [ListenerAction.enqueue e]
        | none => acc)
      []) ++
    [ListenerAction.updateCursor to_block, ListenerAction.saveState to_block]

/-- Whether a listener action is a `submit_mint_transaction` call. -/
def ListenerAction.isEnqueue : ListenerAction → Bool
  | ListenerAction.enqueue _ => true
  | _ => false

/-- A JSON value, as produced by `json.load`. -/
inductive Json where
  | null
  | bool (b : Bool)
  | num (n : Int)
  | str (s : List Char)
  | arr (xs : List Json)
  | obj (kvs : List (String × Json))

/-- Python dict lookup on a parsed JSON object: later duplicate keys
overwrite earlier ones, so the last binding wins. -/
def jsonObjGet (kvs : List (String × Json)) (k : String) : Option Json :=
  match kvs.reverse.find? (fun kv => kv.fst = k) with
  | some kv => some kv.snd
  | none => none

/-- Errors `_load_state` can raise past its `except` clause. -/
inductive LoadError where
  | keyError
  | typeError
deriving DecidableEq

/-- What `_load_state` finds: `none` = the file is absent
(`FileNotFoundError`); `some none` = the file exists but is not valid
JSON (`json.JSONDecodeError`); `some (some j)` = `json.load` returns
`j`. -/
def LoadedFile := Option (Option Json)

/-- `EventListener._load_state`: fall back to the configured start
block on `FileNotFoundError` or `JSONDecodeError`; otherwise the log
statement reads `state['last_processed_block']`, which raises an
uncaught `TypeError` (non-dict JSON) or `KeyError` (missing key) before
the state is returned. -/
def _load_state (start_block : Int) (file : LoadedFile) : Except LoadError Json :=
  match file with
  | none => Except.ok (Json.obj [("last_processed_block", Json.num start_block)])
  | some none => Except.ok (Json.obj [("last_processed_block", Json.num start_block)])
  | some (some j) =>
    match j with
    | Json.obj kvs =>
      match jsonObjGet kvs "last_processed_block" with
      | some _ => Except.ok j
      | none => Except.error LoadError.keyError
    | _ => Except.error LoadError.typeError

/-! ## Lemmas about the poll loop -/

/-- One iteration never decreases the in-memory cursor. -/
theorem last_le_runIteration (cfg : ListenerConfig) (s : ListenerState) (inp : IterInput) :
    s.last_processed_block ≤ (runIteration cfg s inp).last_processed_block := by
  unfold runIteration pollDecision
  by_cases h : s.last_processed_block + 1 > inp.latest_block - cfg.confirmation_blocks
  · simp [h]
  · simp [h, _save_state]
    cases hs : inp.save_ok <;> simp <;> omega

/-- Any sequence of iterations never decreases the in-memory cursor. -/
theorem last_le_foldl_runIteration (cfg : ListenerConfig) (inputs : List IterInput)
    (s : ListenerState) :
    s.last_processed_block ≤ (inputs.foldl (runIteration cfg) s).last_processed_block := by
  induction inputs generalizing s with
  | nil => exact le_refl _
  | cons inp rest ih =>
    exact le_trans (last_le_runIteration cfg s inp) (ih (runIteration cfg s inp))

/-- Every range scanned from state `s` starts above `s`'s cursor. -/
theorem ranges_fst_ge (cfg : ListenerConfig) (inputs : List IterInput)
    (s : ListenerState) (r : Int × Int) (hr : r ∈ iterRanges cfg s inputs) :
    s.last_processed_block + 1 ≤ r.1 := by
  induction inputs generalizing s with
  | nil => simp [iterRanges] at hr
  | cons inp rest ih =>
    unfold iterRanges at hr
    by_cases h : s.last_processed_block + 1 > inp.latest_block - cfg.confirmation_blocks
    · simp [pollDecision, h] at hr
      have := ih (runIteration cfg s inp) hr
      have := last_le_runIteration cfg s inp
      omega
    · simp [pollDecision, h] at hr
      rcases hr with hr | hr
      · subst hr; simp
      · have := ih (runIteration cfg s inp) hr
        have := last_le_runIteration cfg s inp
        omega

/-- C1: within one process, the in-memory cursor `last_processed_block`
is monotonically non-decreasing across every sequence of poll-loop
iterations, and an iteration that finds work (`from_block ≤ to_block`)
leaves the cursor exactly at `latest_block - confirmation_blocks` as
sampled at the start of that iteration. -/
theorem claim_C1 (cfg : ListenerConfig) (s : ListenerState) :
    (∀ inputs : List IterInput,
      s.last_processed_block ≤
        (inputs.foldl (runIteration cfg) s).last_processed_block) ∧
    (∀ inp : IterInput,
      s.last_processed_block + 1 ≤ inp.latest_block - cfg.confirmation_blocks →
        (runIteration cfg s inp).last_processed_block =
          inp.latest_block - cfg.confirmation_blocks) := by
  constructor
  · exact fun inputs => last_le_foldl_runIteration cfg inputs s
  · intro inp h
    unfold runIteration pollDecision
    have h2 : ¬ s.last_processed_block + 1 > inp.latest_block - cfg.confirmation_blocks := by
      omega
    simp [h2, _save_state]
    cases hs : inp.save_ok <;> simp

/-- C1 witness at a concrete configuration and iteration input. -/
theorem claim_C1_witness :
    ((1000 : Int) ≤
      (([⟨1010, [], true⟩] : List IterInput).foldl
        (runIteration ⟨1000, 6⟩) ⟨1000, initProcState, none⟩).last_processed_block) ∧
    (runIteration ⟨1000, 6⟩ ⟨1000, initProcState, none⟩
        ⟨1010, [], true⟩).last_processed_block = 1010 - 6 :=
  ⟨(claim_C1 ⟨1000, 6⟩ ⟨1000, initProcState, none⟩).1 [⟨1010, [], true⟩],
   (claim_C1 ⟨1000, 6⟩ ⟨1000, initProcState, none⟩).2 ⟨1010, [], true⟩ (by decide)⟩

/-- C2: an iteration with `last_processed_block + 1 > latest_block -
confirmation_blocks` signals no work: the whole listener state (cursor,
queue, disk) is unchanged, no effect — in particular no log fetch and
no enqueue — is performed, and the outcome does not depend on what
`get_logs` would have returned or on whether saving would have
succeeded. -/
theorem claim_C2 (cfg : ListenerConfig) (s : ListenerState) (inp : IterInput)
    (h : s.last_processed_block + 1 > inp.latest_block - cfg.confirmation_blocks) :
    runIteration cfg s inp = s ∧
    iterationActions cfg s inp = [] ∧
    (∀ logs2 : List LogEntry, ∀ ok2 : Bool,
      runIteration cfg s ⟨inp.latest_block, logs2, ok2⟩ = s) := by
  refine ⟨?_, ?_, fun logs2 ok2 => ?_⟩ <;>
    simp [runIteration, iterationActions, pollDecision, h]

/-- C2 witness: chain head 1004, confirmations 6, cursor 1000; the
iteration is a no-op even when a log would be available and the save
would fail. -/
theorem claim_C2_witness :
    runIteration ⟨1000, 6⟩ ⟨1000, initProcState, none⟩ ⟨1004, [], true⟩ =
      ⟨1000, initProcState, none⟩ ∧
    iterationActions ⟨1000, 6⟩ ⟨1000, initProcState, none⟩ ⟨1004, [], true⟩ = [] ∧
    runIteration ⟨1000, 6⟩ ⟨1000, initProcState, none⟩
        ⟨1004, [⟨[], [], [], 1002⟩], false⟩ =
      ⟨1000, initProcState, none⟩ :=
  have h := claim_C2 ⟨1000, 6⟩ ⟨1000, initProcState, none⟩ ⟨1004, [], true⟩ (by decide)
  ⟨h.1, h.2.1, h.2.2 [⟨[], [], [], 1002⟩] false⟩

/-- C10: `_save_state` swallows the I/O failure, so after a work
iteration whose save fails the in-memory cursor has still advanced to
`to_block`, the persisted cursor is unchanged, and no later iteration
of the same process ever scans a range that reaches back to `to_block`
or below. -/
theorem claim_C10 (cfg : ListenerConfig) (s : ListenerState) (latest : Int)
    (logs : List LogEntry)
    (h : s.last_processed_block + 1 ≤ latest - cfg.confirmation_blocks) :
    (runIteration cfg s ⟨latest, logs, false⟩).last_processed_block =
      latest - cfg.confirmation_blocks ∧
    (runIteration cfg s ⟨latest, logs, false⟩).disk = s.disk ∧
    (∀ inputs : List IterInput, ∀ r : Int × Int,
      r ∈ iterRanges cfg (runIteration cfg s ⟨latest, logs, false⟩) inputs →
        latest - cfg.confirmation_blocks < r.1) := by
  have h2 : ¬ s.last_processed_block + 1 > latest - cfg.confirmation_blocks := by omega
  have hlast : (runIteration cfg s ⟨latest, logs, false⟩).last_processed_block =
      latest - cfg.confirmation_blocks := by
    simp [runIteration, pollDecision, h2, _save_state]
  refine ⟨hlast, ?_, ?_⟩
  · simp [runIteration, pollDecision, h2, _save_state]
  · intro inputs r hr
    have := ranges_fst_ge cfg inputs _ r hr
    omega

/-- C10 witness: cursor 1000, head 1010, confirmations 6, failing save;
the next iteration at head 1020 scans a range starting at 1005. -/
theorem claim_C10_witness :
    (runIteration ⟨1000, 6⟩ ⟨1000, initProcState, some 1000⟩
      ⟨1010, [], false⟩).last_processed_block = 1010 - 6 ∧
    (runIteration ⟨1000, 6⟩ ⟨1000, initProcState, some 1000⟩
      ⟨1010, [], false⟩).disk = some 1000 ∧
    ((1010 : Int) - 6 <
      ((1005 : Int), (1014 : Int)).1 →
        (1010 : Int) - 6 < ((1005 : Int), (1014 : Int)).1) := by
  have h := claim_C10 ⟨1000, 6⟩ ⟨1000, initProcState, some 1000⟩ 1010 [] (by decide)
  exact ⟨h.1, h.2.1, fun hx => hx⟩

/-- The enqueue-action accumulator of the loop body, rewritten as a map
over the successfully parsed events. -/
theorem foldl_enqueue_eq (logs : List LogEntry) (acc : List ListenerAction) :
    logs.foldl
      (fun acc log =>
        match parse_lock_event_from_log log with
        | some e => acc ++ [ListenerAction.enqueue e]
        | none => acc)
      acc =
    acc ++ (logs.filterMap parse_lock_event_from_log).map ListenerAction.enqueue := by
  induction logs generalizing acc with
  | nil => simp
  | cons log rest ih =>
    simp only [List.foldl_cons, List.filterMap_cons]
    cases hp : parse_lock_event_from_log log with
    | none => simp [hp, ih]
    | some e => simp [hp, ih (acc ++ [ListenerAction.enqueue e])]

/-- In a list made of enqueue actions followed by non-enqueue actions,
every enqueue position precedes every non-enqueue position. -/
theorem enqueues_precede (E tl : List ListenerAction)
    (hE : ∀ a ∈ E, a.isEnqueue = true) (htl : ∀ a ∈ tl, a.isEnqueue = false)
    (i j : Nat) (hi : i < (E ++ tl).length) (hj : j < (E ++ tl).length)
    (henq : ((E ++ tl)[i]).isEnqueue = true)
    (hnot : ((E ++ tl)[j]).isEnqueue = false) :
    i < j := by
  have hlen : (E ++ tl).length = E.length + tl.length := by simp
  have hiE : i < E.length := by
    by_contra hge
    push_neg at hge
    have hplace : i - E.length < tl.length := by omega
    rw [List.getElem_append_right hge] at henq
    have := htl _ (List.getElem_mem hplace)
    simp [this] at henq
  have hjE : E.length ≤ j := by
    by_contra hlt
    push_neg at hlt
    rw [List.getElem_append_left hlt] at hnot
    have := hE _ (List.getElem_mem hlt)
    simp [this] at hnot
  omega

/-- C7: in a work iteration, the observable effects are exactly the
enqueues of all successfully parsed events of the range, followed by
the cursor update to `to_block` and its persistence; positionally,
every enqueue precedes every cursor write, so the persisted cursor
never runs ahead of enqueued work. -/
theorem claim_C7 (cfg : ListenerConfig) (s : ListenerState) (inp : IterInput)
    (fb tb : Int)
    (h : pollDecision s.last_processed_block inp.latest_block cfg.confirmation_blocks =
      some (fb, tb)) :
    iterationActions cfg s inp =
      (inp.logs.filterMap parse_lock_event_from_log).map ListenerAction.enqueue ++
        [ListenerAction.updateCursor tb, ListenerAction.saveState tb] ∧
    (∀ i j : Nat,
      ∀ hi : i < (iterationActions cfg s inp).length,
      ∀ hj : j < (iterationActions cfg s inp).length,
      ((iterationActions cfg s inp)[i]).isEnqueue = true →
      ((iterationActions cfg s inp)[j]).isEnqueue = false →
      i < j) := by
  have hact : iterationActions cfg s inp =
      (inp.logs.filterMap parse_lock_event_from_log).map ListenerAction.enqueue ++
        [ListenerAction.updateCursor tb, ListenerAction.saveState tb] := by
    unfold iterationActions
    rw [h, foldl_enqueue_eq]
    simp
  refine ⟨hact, ?_⟩
  intro i j hi hj henq hnot
  simp only [hact] at hi hj henq hnot
  refine enqueues_precede _ _ ?_ ?_ i j hi hj henq hnot
  · intro a ha
    rcases List.mem_map.mp ha with ⟨e, _, rfl⟩
    rfl
  · intro a ha
    simp only [List.mem_cons, List.not_mem_nil, or_false] at ha
    rcases ha with rfl | rfl <;> rfl

set_option maxRecDepth 100000

/-- C7 witness: one parseable log in range 1001–1004; its enqueue (index
0) precedes the cursor write (index 2). -/
theorem claim_C7_witness :
    iterationActions ⟨1000, 6⟩ ⟨1000, initProcState, none⟩
        ⟨1010, [⟨[], [], '0' :: 'x' :: List.replicate 320 '0', 1002⟩], true⟩ =
      (([⟨[], [], '0' :: 'x' :: List.replicate 320 '0', 1002⟩] : List LogEntry).filterMap
          parse_lock_event_from_log).map ListenerAction.enqueue ++
        [ListenerAction.updateCursor 1004, ListenerAction.saveState 1004] ∧
    (0 : Nat) < 2 :=
  have h := claim_C7 ⟨1000, 6⟩ ⟨1000, initProcState, none⟩
    ⟨1010, [⟨[], [], '0' :: 'x' :: List.replicate 320 '0', 1002⟩], true⟩ 1001 1004 (by decide)
  ⟨h.1, h.2 0 2 (by decide) (by decide) (by decide) (by decide)⟩

/-- A nonce is registered after a submission sequence iff it was
registered before or some submitted event carries it. -/
theorem mem_processed_foldl (evs : List ParsedLockEvent) (p : ProcState) (n : Int) :
    n ∈ (evs.foldl submit_mint_transaction p).processed_nonces ↔
      n ∈ p.processed_nonces ∨ ∃ e ∈ evs, e.nonce = n := by
  induction evs generalizing p with
  | nil => simp
  | cons e rest ih =>
    simp only [List.foldl_cons, ih]
    unfold submit_mint_transaction
    by_cases he : e.nonce ∈ p.processed_nonces
    · simp only [he, if_pos]
      constructor
      · rintro (h | h)
        · exact Or.inl h
        · exact Or.inr (by simpa using Or.inr h)
      · rintro (h | h)
        · exact Or.inl h
        · rcases h with ⟨x, hx, hxn⟩
          rcases List.mem_cons.mp hx with rfl | hx
          · exact Or.inl (hxn ▸ he)
          · exact Or.inr ⟨x, hx, hxn⟩
    · simp only [he, if_neg, not_false_iff]
      simp only [Finset.mem_insert]
      constructor
      · rintro (⟨h | h⟩ | h)
        · exact Or.inr ⟨e, List.mem_cons_self e rest, h.symm⟩
        · exact Or.inl h
        · rcases h with ⟨x, hx, hxn⟩
          exact Or.inr ⟨x, List.mem_cons_of_mem e hx, hxn⟩
      · rintro (h | h)
        · exact Or.inl (Or.inr h)
        · rcases h with ⟨x, hx, hxn⟩
          rcases List.mem_cons.mp hx with rfl | hx
          · exact Or.inl (Or.inl hxn.symm)
          · exact Or.inr ⟨x, hx, hxn⟩

/-- Submission preserves the queue/registry invariant: the pending FIFO
holds exactly one event per registered nonce that is still queued —
here in the strong form that, starting from a fresh processor, the
pending count of a nonce matches its registration. -/
theorem submit_preserves_count (p : ProcState) (e : ParsedLockEvent)
    (h : ∀ n : Int, p.pending.countP (fun x => decide (x.nonce = n)) =
      if n ∈ p.processed_nonces then 1 else 0) :
    ∀ n : Int, (submit_mint_transaction p e).pending.countP (fun x => decide (x.nonce = n)) =
      if n ∈ (submit_mint_transaction p e).processed_nonces then 1 else 0 := by
  intro n
  unfold submit_mint_transaction
  by_cases he : e.nonce ∈ p.processed_nonces
  · simp only [he, if_pos]
    exact h n
  · simp only [he, if_neg, not_false_iff]
    rw [List.countP_append]
    by_cases hn : n = e.nonce
    · subst hn
      have h0 := h e.nonce
      rw [if_neg he] at h0
      rw [if_pos (Finset.mem_insert_self e.nonce p.processed_nonces), h0]
      simp [List.countP_cons]
    · have hne : ¬ e.nonce = n := fun hc => hn hc.symm
      simp [List.countP_cons, hne, Finset.mem_insert, hn, h n]

/-- The invariant holds after any submission sequence from a fresh
processor. -/
theorem foldl_submit_count (evs : List ParsedLockEvent) (p : ProcState)
    (h : ∀ n : Int, p.pending.countP (fun x => decide (x.nonce = n)) =
      if n ∈ p.processed_nonces then 1 else 0) :
    ∀ n : Int, (evs.foldl submit_mint_transaction p).pending.countP
        (fun x => decide (x.nonce = n)) =
      if n ∈ (evs.foldl submit_mint_transaction p).processed_nonces then 1 else 0 := by
  induction evs generalizing p with
  | nil => exact h
  | cons e rest ih =>
    exact ih (submit_mint_transaction p e) (submit_preserves_count p e h)

/-- Draining the queue for as many steps as it holds items delivers
exactly the pending FIFO, in order. -/
theorem drainQueue_pending : ∀ (l : List ParsedLockEvent) (ps : Finset Int),
    drainQueue l.length ⟨l, ps⟩ = l := by
  intro l
  induction l with
  | nil => intro ps; rfl
  | cons e rest ih =>
    intro ps
    simp [drainQueue, process_queue_step, ih]

/-- C5: after any sequence of `submit_mint_transaction` calls on a fresh
processor, draining the queue delivers exactly one event for a nonce
that was submitted at least once (in particular for two submissions
with the same nonce), and none for a nonce never submitted; the second
submission is discarded without any failure. -/
theorem claim_C5 (evs : List ParsedLockEvent) (n : Int) :
    (drainQueue (evs.foldl submit_mint_transaction initProcState).pending.length
        (evs.foldl submit_mint_transaction initProcState)).countP
      (fun e => decide (e.nonce = n)) =
      if ∃ e ∈ evs, e.nonce = n then 1 else 0 := by
  have hdrain : drainQueue (evs.foldl submit_mint_transaction initProcState).pending.length
      (evs.foldl submit_mint_transaction initProcState) =
      (evs.foldl submit_mint_transaction initProcState).pending := by
    have := drainQueue_pending (evs.foldl submit_mint_transaction initProcState).pending
      (evs.foldl submit_mint_transaction initProcState).processed_nonces
    exact this
  rw [hdrain]
  have hinv := foldl_submit_count evs initProcState (by intro n2; simp [initProcState]) n
  rw [hinv]
  have hmem := mem_processed_foldl evs initProcState n
  by_cases hx : ∃ e ∈ evs, e.nonce = n
  · rw [if_pos (hmem.mpr (Or.inr hx)), if_pos hx]
  · have hnot : ¬ n ∈ (evs.foldl submit_mint_transaction initProcState).processed_nonces := by
      intro hc
      rcases hmem.mp hc with h0 | h0
      · simp [initProcState] at h0
      · exact hx h0
    rw [if_neg hnot, if_neg hx]

/-- C6: three events with pairwise distinct nonces submitted in order
`[e1, e2, e3]` to a fresh processor are all accepted and delivered by
the consumer loop in exactly that insertion order. -/
theorem claim_C6 (e1 e2 e3 : ParsedLockEvent)
    (h12 : e1.nonce ≠ e2.nonce) (h13 : e1.nonce ≠ e3.nonce) (h23 : e2.nonce ≠ e3.nonce) :
    drainQueue 3
      (submit_mint_transaction
        (submit_mint_transaction (submit_mint_transaction initProcState e1) e2) e3) =
      [e1, e2, e3] := by
  have s1 : submit_mint_transaction initProcState e1 =
      ⟨[e1], {e1.nonce}⟩ := by
    simp [submit_mint_transaction, initProcState]
  have s2 : submit_mint_transaction ⟨[e1], {e1.nonce}⟩ e2 =
      ⟨[e1, e2], insert e2.nonce {e1.nonce}⟩ := by
    have hm : e2.nonce ∉ ({e1.nonce} : Finset Int) := by
      rw [Finset.mem_singleton]
      exact fun h => h12 h.symm
    simp [submit_mint_transaction, hm]
  have s3 : submit_mint_transaction ⟨[e1, e2], insert e2.nonce {e1.nonce}⟩ e3 =
      ⟨[e1, e2, e3], insert e3.nonce (insert e2.nonce {e1.nonce})⟩ := by
    have hm : e3.nonce ∉ insert e2.nonce ({e1.nonce} : Finset Int) := by
      simp [Finset.mem_insert, Finset.mem_singleton]
      exact ⟨fun h => h23 h.symm, fun h => h13 h.symm⟩
    simp [submit_mint_transaction, hm]
  rw [s1, s2, s3]
  simp [drainQueue, process_queue_step]

/-- C6 witness at three concrete events with nonces 1, 2, 3. -/
theorem claim_C6_witness :
    drainQueue 3
      (submit_mint_transaction
        (submit_mint_transaction
          (submit_mint_transaction initProcState ⟨[], 0, [], 0, 1, 10⟩)
          ⟨[], 0, [], 0, 2, 11⟩)
        ⟨[], 0, [], 0, 3, 12⟩) =
      [⟨[], 0, [], 0, 1, 10⟩, ⟨[], 0, [], 0, 2, 11⟩, ⟨[], 0, [], 0, 3, 12⟩] :=
  claim_C6 ⟨[], 0, [], 0, 1, 10⟩ ⟨[], 0, [], 0, 2, 11⟩ ⟨[], 0, [], 0, 3, 12⟩
    (by decide) (by decide) (by decide)

/-- C8 counterexample: `{}` is valid JSON but not a valid ScanState
record; the claim says construction falls back to the start block, but
`_load_state` raises an uncaught `KeyError` (the `except` clause names
only `FileNotFoundError` and `JSONDecodeError`), so construction fails
instead of yielding the fallback cursor. -/
theorem claim_C8_counterexample :
    _load_state 1000 (some (some (Json.obj []))) = Except.error LoadError.keyError ∧
    _load_state 1000 (some (some (Json.obj []))) ≠
      Except.ok (Json.obj [("last_processed_block", Json.num 1000)]) := by
  exact ⟨rfl, fun h => by cases h⟩

/-- C8 (amended): loading falls back to the configured start block
exactly when the state file is absent or its content is not decodable
as JSON; stored JSON objects containing `last_processed_block` are
returned as stored; any other successfully decoded JSON value makes
construction raise an uncaught `KeyError`/`TypeError` rather than fall
back. -/
theorem claim_C8 (sb : Int) :
    _load_state sb none = Except.ok (Json.obj [("last_processed_block", Json.num sb)]) ∧
    _load_state sb (some none) =
      Except.ok (Json.obj [("last_processed_block", Json.num sb)]) ∧
    (∀ kvs : List (String × Json), ∀ v : Json,
      jsonObjGet kvs "last_processed_block" = some v →
        _load_state sb (some (some (Json.obj kvs))) = Except.ok (Json.obj kvs)) ∧
    (∀ kvs : List (String × Json),
      jsonObjGet kvs "last_processed_block" = none →
        _load_state sb (some (some (Json.obj kvs))) = Except.error LoadError.keyError) ∧
    (∀ j : Json, (∀ kvs : List (String × Json), j ≠ Json.obj kvs) →
      _load_state sb (some (some j)) = Except.error LoadError.typeError) := by
  refine ⟨rfl, rfl, ?_, ?_, ?_⟩
  · intro kvs v hv
    simp [_load_state, hv]
  · intro kvs hv
    simp [_load_state, hv]
  · intro j hj
    cases j with
    | obj kvs => exact absurd rfl (hj kvs)
    | null => rfl
    | bool b => rfl
    | num n => rfl
    | str s => rfl
    | arr xs => rfl

/-- C8 witness: a stored record with cursor 55 is returned as stored;
a stored JSON number 5 raises `TypeError`. -/
theorem claim_C8_witness :
    _load_state 7 (some (some (Json.obj [("last_processed_block", Json.num 55)]))) =
      Except.ok (Json.obj [("last_processed_block", Json.num 55)]) ∧
    _load_state 7 (some (some (Json.num 5))) = Except.error LoadError.typeError :=
  ⟨(claim_C8 7).2.2.1 [("last_processed_block", Json.num 55)] (Json.num 55) rfl,
   (claim_C8 7).2.2.2.2 (Json.num 5) (fun kvs h => by cases h)⟩

/-- C3 counterexample: a log whose stripped data has the right length
(320) but non-hex content (`z` characters filling the first, address,
field) does NOT yield a decode error: the decoder returns a garbage
ParsedLockEvent with `source_token = "0x" ++ "z" * 40`, because the two
address fields are never parsed as integers. -/
theorem claim_C3_counterexample :
    parse_lock_event_from_log
        ⟨[], [], '0' :: 'x' :: (List.replicate 64 'z' ++ List.replicate 256 '0'), 7⟩ =
      some ⟨'0' :: 'x' :: List.replicate 40 'z', 0,
        '0' :: 'x' :: List.replicate 40 '0', 0, 0, 7⟩ ∧
    (remove0x ('0' :: 'x' :: (List.replicate 64 'z' ++ List.replicate 256 '0'))).length
      = 320 ∧
    (remove0x ('0' :: 'x' :: (List.replicate 64 'z' ++ List.replicate 256 '0'))).all
      isHexDigitCh = false := by
  exact ⟨by decide, by decide, by decide⟩

/-- C3 (amended): `parse_lock_event_from_log` returns a decode error
(`None`) if and only if the data, after removing every occurrence of
the substring `0x`, is not exactly 320 characters long, or one of the
three integer fields (character ranges `[64,128)`, `[192,256)`,
`[256,320)`) fails to parse as a base-16 Python integer.  Non-hex
content confined to the two address fields does not cause an error, and
integer overflow is impossible (Python integers are unbounded). -/
theorem claim_C3 (log : LogEntry) :
    parse_lock_event_from_log log = none ↔
      (remove0x log.data).length ≠ 320 ∨
      pyIntHex (pySlice (remove0x log.data) 64 128) = none ∨
      pyIntHex (pySlice (remove0x log.data) 192 256) = none ∨
      pyIntHex (pySlice (remove0x log.data) 256 320) = none := by
  unfold parse_lock_event_from_log
  by_cases hlen : (remove0x log.data).length = 320
  · have h64 : ¬ (remove0x log.data).length ≠ 64 * 5 := by omega
    simp only [h64, if_neg, not_false_iff, hlen]
    cases h1 : pyIntHex (pySlice (remove0x log.data) 64 128) <;>
      cases h2 : pyIntHex (pySlice (remove0x log.data) 192 256) <;>
        cases h3 : pyIntHex (pySlice (remove0x log.data) 256 320) <;>
          simp
  · have h64 : (remove0x log.data).length ≠ 64 * 5 := by omega
    simp [h64, hlen]

/-! ## Lemmas about the hex machinery -/

/-- A hex digit is not a whitespace character. -/
theorem hex_not_ws (c : Char) (h : isHexDigitCh c = true) : isPyWs c = false := by
  by_contra hw
  simp only [Bool.not_eq_false] at hw
  simp only [isPyWs, Bool.or_eq_true, decide_eq_true_eq] at hw
  rcases hw with ((((rfl | rfl) | rfl) | rfl) | rfl) | rfl <;> simp [isHexDigitCh] at h

/-- A hex digit is not an underscore. -/
theorem hex_not_underscore (c : Char) (h : isHexDigitCh c = true) : c ≠ '_' := by
  rintro rfl
  simp [isHexDigitCh] at h

/-- A hex digit is not a sign character. -/
theorem hex_not_sign (c : Char) (h : isHexDigitCh c = true) : c ≠ '+' ∧ c ≠ '-' := by
  constructor <;> rintro rfl <;> simp [isHexDigitCh] at h

/-- A hex digit is not `x` or `X`. -/
theorem hex_not_x (c : Char) (h : isHexDigitCh c = true) : c ≠ 'x' ∧ c ≠ 'X' := by
  constructor <;> rintro rfl <;> simp [isHexDigitCh] at h

/-- `dropWhile` is the identity when no element satisfies the predicate. -/
theorem dropWhile_eq_self_of_none (p : Char → Bool) (l : List Char)
    (h : ∀ c ∈ l, p c = false) : l.dropWhile p = l := by
  cases l with
  | nil => rfl
  | cons c rest =>
    rw [List.dropWhile_cons, h c (List.mem_cons_self c rest)]
    simp

/-- Stripping whitespace is the identity on all-hex strings. -/
theorem stripWs_of_hex (l : List Char) (h : l.all isHexDigitCh = true) :
    stripWs l = l := by
  have hws : ∀ c ∈ l, isPyWs c = false :=
    fun c hc => hex_not_ws c (List.all_eq_true.mp h c hc)
  unfold stripWs
  rw [dropWhile_eq_self_of_none _ _ hws,
    dropWhile_eq_self_of_none _ _ (fun c hc => hws c (List.mem_reverse.mp hc)),
    List.reverse_reverse]

/-- `hexTail` holds for all-hex strings. -/
theorem hexTail_of_hex (l : List Char) (h : l.all isHexDigitCh = true) :
    hexTail l = true := by
  induction l with
  | nil => rfl
  | cons c rest ih =>
    simp only [List.all_cons, Bool.and_eq_true] at h
    unfold hexTail
    rw [if_neg (hex_not_underscore c h.1)]
    simp [h.1, ih h.2]

/-- `hexCore` holds for nonempty all-hex strings. -/
theorem hexCore_of_hex (l : List Char) (hne : l ≠ []) (h : l.all isHexDigitCh = true) :
    hexCore l = true := by
  cases l with
  | nil => exact absurd rfl hne
  | cons c rest =>
    simp only [List.all_cons, Bool.and_eq_true] at h
    unfold hexCore
    simp [h.1, hexTail_of_hex rest h.2]

/-- On a nonempty all-hex string `pyIntHexBody` succeeds with its
`hexVal`. -/
theorem pyIntHexBody_of_hex (l : List Char) (hne : l ≠ [])
    (h : l.all isHexDigitCh = true) :
    pyIntHexBody l = some (hexVal l) := by
  match l with
  | [] => exact absurd rfl hne
  | [c] =>
    show (if hexCore [c] then some (hexVal [c]) else none) = some (hexVal [c])
    rw [if_pos (hexCore_of_hex [c] (by simp) h)]
  | c0 :: c1 :: rest =>
    have h1 : isHexDigitCh c1 = true := by
      simp only [List.all_cons, Bool.and_eq_true] at h
      exact h.2.1
    show (if c0 = '0' ∧ (c1 = 'x' ∨ c1 = 'X') then _ else
      if hexCore (c0 :: c1 :: rest) then some (hexVal (c0 :: c1 :: rest)) else none) =
      some (hexVal (c0 :: c1 :: rest))
    rw [if_neg (by
      rintro ⟨-, hx | hx⟩
      · exact (hex_not_x c1 h1).1 hx
      · exact (hex_not_x c1 h1).2 hx)]
    rw [if_pos (hexCore_of_hex _ (by simp) h)]

/-- On a nonempty all-hex string `pyIntHex` succeeds with its
`hexVal`. -/
theorem pyIntHex_of_hex (l : List Char) (hne : l ≠ [])
    (h : l.all isHexDigitCh = true) :
    pyIntHex l = some (Int.ofNat (hexVal l)) := by
  unfold pyIntHex
  rw [stripWs_of_hex l h]
  match l with
  | [] => exact absurd rfl hne
  | c :: rest =>
    have hc : isHexDigitCh c = true := by
      simp only [List.all_cons, Bool.and_eq_true] at h
      exact h.1
    have hplus : ¬ (c :: rest).head? = some '+' := by
      simp only [List.head?_cons, Option.some.injEq]
      exact (hex_not_sign c hc).1
    have hminus : ¬ (c :: rest).head? = some '-' := by
      simp only [List.head?_cons, Option.some.injEq]
      exact (hex_not_sign c hc).2
    simp only [hplus, hminus, if_false, if_neg]
    rw [pyIntHexBody_of_hex (c :: rest) (by simp) h]
    rfl

/-- The underscore filter inside `hexVal` is the identity on all-hex
strings. -/
theorem hexVal_filter_of_hex (l : List Char) (h : l.all isHexDigitCh = true) :
    l.filter (fun c => c ≠ '_') = l := by
  refine List.filter_eq_self.mpr ?_
  intro c hc
  simp only [ne_eq, decide_eq_true_eq]
  exact hex_not_underscore c (List.all_eq_true.mp h c hc)

/-- Accumulator decomposition of the hex digit fold. -/
theorem hexFold_acc (l : List Char) (acc : Nat) :
    l.foldl (fun a c => 16 * a + hexDigitVal c) acc =
      acc * 16 ^ l.length + l.foldl (fun a c => 16 * a + hexDigitVal c) 0 := by
  induction l generalizing acc with
  | nil => simp
  | cons c rest ih =>
    simp only [List.foldl_cons, List.length_cons]
    rw [ih (16 * acc + hexDigitVal c), ih (16 * 0 + hexDigitVal c)]
    ring

/-- The hex digit fold over a block of `'0'` padding is zero. -/
theorem hexFold_zeros (k : Nat) :
    (List.replicate k '0').foldl (fun a c => 16 * a + hexDigitVal c) 0 = 0 := by
  induction k with
  | zero => rfl
  | succ n ih =>
    rw [List.replicate_succ, List.foldl_cons]
    have : 16 * 0 + hexDigitVal '0' = 0 := by decide
    rw [this, ih]

/-- Left `'0'`-padding does not change the value of an all-hex string. -/
theorem hexVal_zero_pad (k : Nat) (l : List Char) (h : l.all isHexDigitCh = true) :
    hexVal (List.replicate k '0' ++ l) = hexVal l := by
  unfold hexVal
  have hall : (List.replicate k '0' ++ l).all isHexDigitCh = true := by
    simp only [List.all_append, Bool.and_eq_true]
    refine ⟨?_, h⟩
    simp only [List.all_eq_true]
    intro c hc
    rw [List.eq_of_mem_replicate hc]
    decide
  rw [hexVal_filter_of_hex _ hall, hexVal_filter_of_hex _ h, List.foldl_append,
    hexFold_zeros, hexFold_acc l 0]

/-- The digit value of the digit character of `n < 16` is `n`. -/
theorem hexDigitVal_hexDigitChar (n : Nat) (h : n < 16) :
    hexDigitVal (hexDigitChar n) = n := by
  interval_cases n <;> decide

/-- The digit character of `n < 16` is a hex digit. -/
theorem isHexDigitCh_hexDigitChar (n : Nat) (h : n < 16) :
    isHexDigitCh (hexDigitChar n) = true := by
  interval_cases n <;> decide

/-- The hex digits of `n` are all hex digit characters. -/
theorem natToHex_all_hex (n : Nat) : (natToHex n).all isHexDigitCh = true := by
  induction n using Nat.strong_induction_on with
  | _ n ih =>
    unfold natToHex
    by_cases h : 16 ≤ n
    · rw [dif_pos h]
      simp only [List.all_append, Bool.and_eq_true]
      refine ⟨ih (n / 16) (Nat.div_lt_self (by omega) (by omega)), ?_⟩
      simp [isHexDigitCh_hexDigitChar (n % 16) (Nat.mod_lt n (by omega))]
    · rw [dif_neg h]
      simp [isHexDigitCh_hexDigitChar n (by omega)]

/-- The hex digits of `n` are nonempty. -/
theorem natToHex_ne_nil (n : Nat) : natToHex n ≠ [] := by
  unfold natToHex
  by_cases h : 16 ≤ n
  · rw [dif_pos h]
    simp
  · rw [dif_neg h]
    simp

/-- `hexVal` inverts `natToHex`. -/
theorem hexVal_natToHex (n : Nat) : hexVal (natToHex n) = n := by
  induction n using Nat.strong_induction_on with
  | _ n ih =>
    unfold hexVal at *
    rw [hexVal_filter_of_hex _ (natToHex_all_hex n)]
    unfold natToHex
    by_cases h : 16 ≤ n
    · rw [dif_pos h, List.foldl_append]
      have ihv := ih (n / 16) (Nat.div_lt_self (by omega) (by omega))
      rw [hexVal_filter_of_hex _ (natToHex_all_hex (n / 16))] at ihv
      simp only [List.foldl_cons, List.foldl_nil, ihv]
      rw [hexDigitVal_hexDigitChar (n % 16) (Nat.mod_lt n (by omega))]
      omega
    · rw [dif_neg h]
      simp only [List.foldl_cons, List.foldl_nil]
      rw [hexDigitVal_hexDigitChar n (by omega)]
      omega

/-- `natToHex n` has at most `k` digits when `n < 16 ^ k` (`k ≥ 1`). -/
theorem natToHex_length_le (n : Nat) : ∀ k : Nat, 1 ≤ k → n < 16 ^ k →
    (natToHex n).length ≤ k := by
  induction n using Nat.strong_induction_on with
  | _ n ih =>
    intro k hk hn
    unfold natToHex
    by_cases h : 16 ≤ n
    · rw [dif_pos h]
      have hk2 : 2 ≤ k := by
        by_contra hlt
        push_neg at hlt
        interval_cases k
        · simp at hn; omega
      have hdiv : n / 16 < 16 ^ (k - 1) := by
        have h16 : (16 : Nat) ^ k = 16 ^ (k - 1) * 16 := by
          conv_lhs => rw [show k = (k - 1) + 1 by omega]
          rw [pow_succ]
        apply Nat.div_lt_of_lt_mul
        omega
      have := ih (n / 16) (Nat.div_lt_self (by omega) (by omega)) (k - 1) (by omega) hdiv
      simp only [List.length_append, List.length_cons, List.length_nil]
      omega
    · rw [dif_neg h]
      simp only [List.length_cons, List.length_nil]
      omega

/-- `zfill(64)` on a nonempty all-hex string of length ≤ 64 is plain
left `'0'`-padding (hex strings carry no sign character). -/
theorem pyZfill_of_hex (l : List Char) (hne : l ≠ [])
    (h : l.all isHexDigitCh = true) (hlen : l.length ≤ 64) :
    pyZfill 64 l = List.replicate (64 - l.length) '0' ++ l := by
  unfold pyZfill
  by_cases hge : 64 ≤ l.length
  · rw [if_pos hge]
    have : 64 - l.length = 0 := by omega
    rw [this]
    simp
  · rw [if_neg hge]
    match l with
    | [] => exact absurd rfl hne
    | c :: rest =>
      have hc : isHexDigitCh c = true := by
        simp only [List.all_cons, Bool.and_eq_true] at h
        exact h.1
      show (if c = '+' ∨ c = '-' then
          c :: (List.replicate (64 - (c :: rest).length) '0' ++ rest)
        else List.replicate (64 - (c :: rest).length) '0' ++ c :: rest) =
        List.replicate (64 - (c :: rest).length) '0' ++ c :: rest
      rw [if_neg (by
        rintro (hs | hs)
        · exact (hex_not_sign c hc).1 hs
        · exact (hex_not_sign c hc).2 hs)]

/-- A zero-padded field of an all-hex string is all-hex. -/
theorem pad_all_hex (k : Nat) (l : List Char) (h : l.all isHexDigitCh = true) :
    (List.replicate k '0' ++ l).all isHexDigitCh = true := by
  simp only [List.all_append, Bool.and_eq_true]
  refine ⟨?_, h⟩
  simp only [List.all_eq_true]
  intro c hc
  rw [List.eq_of_mem_replicate hc]
  decide

/-- Dropping the length of a left factor of an append yields the right
factor. -/
theorem drop_app (x y : List Char) (n : Nat) (hx : x.length = n) :
    (x ++ y).drop n = y := by
  subst hx
  exact List.drop_left x y

/-- Taking the length of a left factor of an append yields the left
factor. -/
theorem take_app (x y : List Char) (n : Nat) (hx : x.length = n) :
    (x ++ y).take n = x := by
  subst hx
  exact List.take_left x y

/-- `replace('0x','')` is the identity on strings without `x`. -/
theorem remove0x_of_no_x : ∀ l : List Char, (∀ c ∈ l, c ≠ 'x') → remove0x l = l
  | [], _ => rfl
  | [_], _ => rfl
  | c1 :: c2 :: rest, h => by
    have h2 : c2 ≠ 'x' := h c2 (by simp)
    unfold remove0x
    rw [if_neg (by rintro ⟨-, rfl⟩; exact h2 rfl)]
    rw [remove0x_of_no_x (c2 :: rest) (fun c hc => h c (List.mem_cons_of_mem c1 hc))]

/-- `replace('0x','')` is the identity on all-hex strings. -/
theorem remove0x_of_hex (l : List Char) (h : l.all isHexDigitCh = true) :
    remove0x l = l :=
  remove0x_of_no_x l (fun c hc => (hex_not_x c (List.all_eq_true.mp h c hc)).1)

/-- `replace('0x','')` strips a literal leading `0x`. -/
theorem remove0x_cons_0x (l : List Char) : remove0x ('0' :: 'x' :: l) = remove0x l := by
  rw [remove0x.eq_def]
  show (if ('0' : Char) = '0' ∧ ('x' : Char) = 'x' then remove0x l
    else '0' :: remove0x ('x' :: l)) = remove0x l
  rw [if_pos ⟨rfl, rfl⟩]

/-- A slice of an all-hex string is all-hex. -/
theorem slice_all_hex (l : List Char) (h : l.all isHexDigitCh = true) (a b : Nat) :
    (pySlice l a b).all isHexDigitCh = true := by
  simp only [List.all_eq_true] at h ⊢
  intro c hc
  exact h c (List.drop_subset a l (List.take_subset _ _ hc))

/-- Length of an in-range slice. -/
theorem slice_length (l : List Char) (a b : Nat) (hb : b ≤ l.length) (hab : a ≤ b) :
    (pySlice l a b).length = b - a := by
  simp only [pySlice, List.length_take, List.length_drop]
  omega

/-- Evaluation of the decoder when the length check passes and the three
integer fields parse. -/
theorem parse_eval (log : LogEntry) (hlen : (remove0x log.data).length = 320)
    (d1 a1 n1 : Int)
    (h1 : pyIntHex (pySlice (remove0x log.data) 64 128) = some d1)
    (h2 : pyIntHex (pySlice (remove0x log.data) 192 256) = some a1)
    (h3 : pyIntHex (pySlice (remove0x log.data) 256 320) = some n1) :
    parse_lock_event_from_log log =
      some ⟨'0' :: 'x' :: pyLastN 40 (pySlice (remove0x log.data) 0 64), d1,
        '0' :: 'x' :: pyLastN 40 (pySlice (remove0x log.data) 128 192), a1, n1,
        log.blockNumber⟩ := by
  have hne : ¬ (remove0x log.data).length ≠ 64 * 5 := by omega
  simp only [parse_lock_event_from_log]
  rw [if_neg hne, h1, h2, h3]

/-- C9: the decoder inspects only `data` and `blockNumber`: its result
is invariant under arbitrary `topics` and `address`, and on a log whose
stripped data is 320 hex characters it succeeds — no event-signature or
contract-address filtering happens in the decoder. -/
theorem claim_C9 (log : LogEntry)
    (hlen : (remove0x log.data).length = 320)
    (hhex : (remove0x log.data).all isHexDigitCh = true) :
    (∀ a : List Char, ∀ t : List (List Char),
      parse_lock_event_from_log ⟨a, t, log.data, log.blockNumber⟩ =
        parse_lock_event_from_log log) ∧
    (parse_lock_event_from_log log).isSome = true := by
  constructor
  · intro a t
    rfl
  · have hs : ∀ a b : Nat, a < b → b ≤ 320 →
        pyIntHex (pySlice (remove0x log.data) a b) =
          some (Int.ofNat (hexVal (pySlice (remove0x log.data) a b))) := by
      intro a b hab hb
      refine pyIntHex_of_hex _ ?_ (slice_all_hex _ hhex a b)
      have hl := slice_length (remove0x log.data) a b (by omega) (by omega)
      intro hx
      rw [hx] at hl
      simp at hl
      omega
    rw [parse_eval log hlen _ _ _ (hs 64 128 (by omega) (by omega))
      (hs 192 256 (by omega) (by omega)) (hs 256 320 (by omega) (by omega))]
    rfl

/-- C9 witness: a 320-zero data field parses to the zero event no matter
the address and topics. -/
theorem claim_C9_witness :
    parse_lock_event_from_log
        ⟨['a'], [['t']], '0' :: 'x' :: List.replicate 320 '0', 42⟩ =
      parse_lock_event_from_log ⟨[], [], '0' :: 'x' :: List.replicate 320 '0', 42⟩ ∧
    (parse_lock_event_from_log
      ⟨[], [], '0' :: 'x' :: List.replicate 320 '0', 42⟩).isSome = true :=
  have h := claim_C9 ⟨[], [], '0' :: 'x' :: List.replicate 320 '0', 42⟩
    (by decide) (by decide)
  ⟨h.1 ['a'] [['t']], h.2⟩

/-- Decoding a `zfill(64)`-padded hex rendering of `m < 16^64` recovers
`m`; the field is 64 characters of hex digits. -/
theorem decode_field (m : Nat) (hm : m < 16 ^ 64) :
    pyIntHex (pyZfill 64 (natToHex m)) = some (Int.ofNat m) ∧
    (pyZfill 64 (natToHex m)).length = 64 ∧
    (pyZfill 64 (natToHex m)).all isHexDigitCh = true := by
  have hlen := natToHex_length_le m 64 (by omega) hm
  have hz := pyZfill_of_hex (natToHex m) (natToHex_ne_nil m) (natToHex_all_hex m) hlen
  have hall : (pyZfill 64 (natToHex m)).all isHexDigitCh = true := by
    rw [hz]
    exact pad_all_hex _ _ (natToHex_all_hex m)
  have hne : pyZfill 64 (natToHex m) ≠ [] := by
    rw [hz]
    intro hx
    have := congrArg List.length hx
    simp only [List.length_append, List.length_replicate, List.length_nil] at this
    have hpos : 0 < (natToHex m).length := by
      cases hnil : natToHex m with
      | nil => exact absurd hnil (natToHex_ne_nil m)
      | cons c cs => simp [hnil]
    omega
  refine ⟨?_, ?_, hall⟩
  · rw [pyIntHex_of_hex _ hne hall, hz, hexVal_zero_pad _ _ (natToHex_all_hex m),
      hexVal_natToHex]
  · rw [hz]
    simp only [List.length_append, List.length_replicate]
    omega

/-- An address string of 40 hex characters `zfill`s to 24 zeros plus the
address, a 64-character all-hex field. -/
theorem encode_address (s : List Char) (hs40 : s.length = 40)
    (hshex : s.all isHexDigitCh = true) :
    pyZfill 64 (remove0x ('0' :: 'x' :: s)) = List.replicate 24 '0' ++ s ∧
    (List.replicate 24 '0' ++ s).length = 64 ∧
    (List.replicate 24 '0' ++ s).all isHexDigitCh = true := by
  have hrm : remove0x ('0' :: 'x' :: s) = s := by
    rw [remove0x_cons_0x, remove0x_of_hex s hshex]
  have hne : s ≠ [] := by
    intro hx
    rw [hx] at hs40
    simp at hs40
  refine ⟨?_, ?_, pad_all_hex 24 s hshex⟩
  · rw [hrm, pyZfill_of_hex s hne hshex (by omega), hs40]
  · simp only [List.length_append, List.length_replicate]
    omega

/-- Slicing the concatenation of five 64-character fields at the five
64-character boundaries recovers the fields. -/
theorem slice_five (F1 F2 F3 F4 F5 : List Char)
    (h1 : F1.length = 64) (h2 : F2.length = 64) (h3 : F3.length = 64)
    (h4 : F4.length = 64) (h5 : F5.length = 64) :
    pySlice (F1 ++ (F2 ++ (F3 ++ (F4 ++ F5)))) 0 64 = F1 ∧
    pySlice (F1 ++ (F2 ++ (F3 ++ (F4 ++ F5)))) 64 128 = F2 ∧
    pySlice (F1 ++ (F2 ++ (F3 ++ (F4 ++ F5)))) 128 192 = F3 ∧
    pySlice (F1 ++ (F2 ++ (F3 ++ (F4 ++ F5)))) 192 256 = F4 ∧
    pySlice (F1 ++ (F2 ++ (F3 ++ (F4 ++ F5)))) 256 320 = F5 := by
  have d64 : (F1 ++ (F2 ++ (F3 ++ (F4 ++ F5)))).drop 64 = F2 ++ (F3 ++ (F4 ++ F5)) :=
    drop_app _ _ 64 h1
  have d128 : (F1 ++ (F2 ++ (F3 ++ (F4 ++ F5)))).drop 128 = F3 ++ (F4 ++ F5) := by
    rw [show (128 : Nat) = 64 + 64 from rfl, ← List.drop_drop, d64]
    exact drop_app _ _ 64 h2
  have d192 : (F1 ++ (F2 ++ (F3 ++ (F4 ++ F5)))).drop 192 = F4 ++ F5 := by
    rw [show (192 : Nat) = 128 + 64 from rfl, ← List.drop_drop, d128]
    exact drop_app _ _ 64 h3
  have d256 : (F1 ++ (F2 ++ (F3 ++ (F4 ++ F5)))).drop 256 = F5 := by
    rw [show (256 : Nat) = 192 + 64 from rfl, ← List.drop_drop, d192]
    exact drop_app _ _ 64 h4
  refine ⟨?_, ?_, ?_, ?_, ?_⟩
  · show ((F1 ++ (F2 ++ (F3 ++ (F4 ++ F5)))).drop 0).take (64 - 0) = F1
    rw [List.drop_zero]
    exact take_app _ _ 64 h1
  · show ((F1 ++ (F2 ++ (F3 ++ (F4 ++ F5)))).drop 64).take (128 - 64) = F2
    rw [d64]
    exact take_app _ _ 64 h2
  · show ((F1 ++ (F2 ++ (F3 ++ (F4 ++ F5)))).drop 128).take (192 - 128) = F3
    rw [d128]
    exact take_app _ _ 64 h3
  · show ((F1 ++ (F2 ++ (F3 ++ (F4 ++ F5)))).drop 192).take (256 - 192) = F4
    rw [d192]
    exact take_app _ _ 64 h4
  · show ((F1 ++ (F2 ++ (F3 ++ (F4 ++ F5)))).drop 256).take (320 - 256) = F5
    rw [d256, show (320 : Nat) - 256 = 64 from rfl, ← h5]
    exact List.take_length F5

/-- C4: decode round-trip.  For any valid ParsedLockEvent — two `0x`
addresses of 40 hex characters and three integers in `[0, 2^256)` —
encoding the five fields with the generator's fixed
64-hex-characters-per-field layout and decoding the resulting log with
`parse_lock_event_from_log` recovers the event exactly, with the log's
block number carried through. -/
theorem claim_C4 (bn : Int) (s r : List Char)
    (hs40 : s.length = 40) (hshex : s.all isHexDigitCh = true)
    (hr40 : r.length = 40) (hrhex : r.all isHexDigitCh = true)
    (dcid amt non : Int)
    (hd0 : 0 ≤ dcid) (hd1 : dcid < 2 ^ 256)
    (ha0 : 0 ≤ amt) (ha1 : amt < 2 ^ 256)
    (hn0 : 0 ≤ non) (hn1 : non < 2 ^ 256) :
    parse_lock_event_from_log
      (_generate_mock_lock_event_log bn ('0' :: 'x' :: s) dcid ('0' :: 'x' :: r) amt non) =
      some ⟨'0' :: 'x' :: s, dcid, '0' :: 'x' :: r, amt, non, bn⟩ := by
  have hpow : (16 : Nat) ^ 64 = 2 ^ 256 := by
    rw [show (16 : Nat) = 2 ^ 4 from rfl, ← pow_mul]
  have toNat_lt : ∀ z : Int, 0 ≤ z → z < 2 ^ 256 → z.toNat < 16 ^ 64 := by
    intro z hz0 hz1
    rw [hpow]
    have hc : (z.toNat : Int) < (2 : Int) ^ 256 := by
      rwa [Int.toNat_of_nonneg hz0]
    exact_mod_cast hc
  obtain ⟨hd2, hl2, hx2⟩ := decode_field dcid.toNat (toNat_lt dcid hd0 hd1)
  obtain ⟨hd4, hl4, hx4⟩ := decode_field amt.toNat (toNat_lt amt ha0 ha1)
  obtain ⟨hd5, hl5, hx5⟩ := decode_field non.toNat (toNat_lt non hn0 hn1)
  obtain ⟨he1, hl1, hx1⟩ := encode_address s hs40 hshex
  obtain ⟨he3, hl3, hx3⟩ := encode_address r hr40 hrhex
  have hpyd : pyHexBody dcid = natToHex dcid.toNat := by
    unfold pyHexBody
    rw [if_neg (by omega)]
  have hpya : pyHexBody amt = natToHex amt.toNat := by
    unfold pyHexBody
    rw [if_neg (by omega)]
  have hpyn : pyHexBody non = natToHex non.toNat := by
    unfold pyHexBody
    rw [if_neg (by omega)]
  have hpayload :
      lockEventDataPayload ('0' :: 'x' :: s) dcid ('0' :: 'x' :: r) amt non =
      (List.replicate 24 '0' ++ s) ++ (pyZfill 64 (natToHex dcid.toNat) ++
        ((List.replicate 24 '0' ++ r) ++ (pyZfill 64 (natToHex amt.toNat) ++
          pyZfill 64 (natToHex non.toNat)))) := by
    unfold lockEventDataPayload
    rw [hpyd, hpya, hpyn, he1, he3]
    simp [List.append_assoc]
  have hph : ((List.replicate 24 '0' ++ s) ++ (pyZfill 64 (natToHex dcid.toNat) ++
      ((List.replicate 24 '0' ++ r) ++ (pyZfill 64 (natToHex amt.toNat) ++
        pyZfill 64 (natToHex non.toNat))))).all isHexDigitCh = true := by
    have hrep : (List.replicate 24 '0').all isHexDigitCh = true := by decide
    simp only [List.all_append, Bool.and_eq_true]
    exact ⟨⟨hrep, hshex⟩, hx2, ⟨hrep, hrhex⟩, hx4, hx5⟩
  have hdata : remove0x
      (_generate_mock_lock_event_log bn ('0' :: 'x' :: s) dcid ('0' :: 'x' :: r)
        amt non).data =
      (List.replicate 24 '0' ++ s) ++ (pyZfill 64 (natToHex dcid.toNat) ++
        ((List.replicate 24 '0' ++ r) ++ (pyZfill 64 (natToHex amt.toNat) ++
          pyZfill 64 (natToHex non.toNat)))) := by
    show remove0x ('0' :: 'x' ::
      lockEventDataPayload ('0' :: 'x' :: s) dcid ('0' :: 'x' :: r) amt non) = _
    rw [hpayload, remove0x_cons_0x, remove0x_of_hex _ hph]
  have hlen : (((List.replicate 24 '0' ++ s) ++ (pyZfill 64 (natToHex dcid.toNat) ++
      ((List.replicate 24 '0' ++ r) ++ (pyZfill 64 (natToHex amt.toNat) ++
        pyZfill 64 (natToHex non.toNat)))))).length = 320 := by
    simp only [List.length_append, List.length_replicate, hl2, hl4, hl5, hs40, hr40]
  obtain ⟨hs1, hs2, hs3, hs4, hs5⟩ := slice_five
    (List.replicate 24 '0' ++ s) (pyZfill 64 (natToHex dcid.toNat))
    (List.replicate 24 '0' ++ r) (pyZfill 64 (natToHex amt.toNat))
    (pyZfill 64 (natToHex non.toNat)) hl1 hl2 hl3 hl4 hl5
  have hbn : (_generate_mock_lock_event_log bn ('0' :: 'x' :: s) dcid ('0' :: 'x' :: r)
      amt non).blockNumber = bn := rfl
  rw [parse_eval _ (by rw [hdata]; exact hlen) dcid amt non
    (by rw [hdata, hs2, hd2]; exact congrArg some (by simp [Int.ofNat_toNat, hd0]))
    (by rw [hdata, hs4, hd4]; exact congrArg some (by simp [Int.ofNat_toNat, ha0]))
    (by rw [hdata, hs5, hd5]; exact congrArg some (by simp [Int.ofNat_toNat, hn0]))]
  rw [hbn, hdata, hs1, hs3]
  have hlast : ∀ t : List Char, t.length = 40 →
      pyLastN 40 (List.replicate 24 '0' ++ t) = t := by
    intro t ht
    show (List.replicate 24 '0' ++ t).drop ((List.replicate 24 '0' ++ t).length - 40) = t
    have : (List.replicate 24 '0' ++ t).length - 40 = 24 := by
      simp only [List.length_append, List.length_replicate]
      omega
    rw [this]
    exact drop_app _ _ 24 (by simp)
  rw [hlast s hs40, hlast r hr40]

/-- C4 witness: the spec's example event (WETH source token, chain id
80001, 1000×10^18 amount, nonce 123456789, block 42) round-trips. -/
theorem claim_C4_witness :
    parse_lock_event_from_log
      (_generate_mock_lock_event_log 42
        ('0' :: 'x' :: "C02aaA39b223FE8D0A0e5C4F27eAD9083C756Cc2".toList) 80001
        ('0' :: 'x' :: "70997970C51812dc3A010C7d01b50e0d17dc79C8".toList)
        (1000 * 10 ^ 18) 123456789) =
      some ⟨'0' :: 'x' :: "C02aaA39b223FE8D0A0e5C4F27eAD9083C756Cc2".toList, 80001,
        '0' :: 'x' :: "70997970C51812dc3A010C7d01b50e0d17dc79C8".toList,
        1000 * 10 ^ 18, 123456789, 42⟩ :=
  claim_C4 42 "C02aaA39b223FE8D0A0e5C4F27eAD9083C756Cc2".toList
    "70997970C51812dc3A010C7d01b50e0d17dc79C8".toList
    (by decide) (by decide) (by decide) (by decide)
    80001 (1000 * 10 ^ 18) 123456789
    (by norm_num) (by norm_num) (by norm_num) (by norm_num) (by norm_num) (by norm_num)
